import Mathlib

/-!
Verification development for the `yimt` parallel-corpus cleaning core
(`yimt/corpus/filters.py` and `yimt/corpus/normalizers.py`).

Strings are modelled as `List Char`.  Python functions that can raise an
exception are modelled with an outer `Option`: `none` is an uncaught
exception (`ZeroDivisionError`, `IndexError`, `ValueError`, invalid regex
at construction), `some v` a normal return.  A filter's normal return is
itself an `Option (List Char × List Char)`: `none` models Python `None`
(the pair is rejected), `some (src, tgt)` models returning the pair.
Real-valued ratios are modelled exactly with `ℚ`.
-/

/-! ### Character classification -/

/-- Python whitespace (the set recognised by `str.strip`, `str.split` and the
`\s` class of `re`/`regex` on `str`): `\t\n\v\f\r` (9–13), `\x1c`–`\x1f`
(28–31), space (32), `\x85` (133), `\xa0` (160), ` ` (5760),
` `–` ` (8192–8202), ` ` (8232), ` ` (8233),
` ` (8239), ` ` (8287) and `　` (12288). -/
def isPySpace (c : Char) : Bool :=
  let n := c.toNat
  (9 ≤ n && n ≤ 13) || (28 ≤ n && n ≤ 32) || n == 133 || n == 160 ||
  n == 5760 || (8192 ≤ n && n ≤ 8202) || n == 8232 || n == 8233 ||
  n == 8239 || n == 8287 || n == 12288

/-- Modelled from the spec: `is_ascii_char` from `yimt.corpus.utils` (the
utilities module is not under `src/`); the spec describes it as a plain
ASCII check on a character. -/
def is_ascii_char (c : Char) : Bool := c.toNat < 128

/-- Modelled from the spec: `is_ascii` from `yimt.corpus.utils` (not under
`src/`); the ASCII check lifted to a whole string. -/
def is_ascii (s : List Char) : Bool := s.all is_ascii_char

/-- Model of the Unicode `Alphabetic` property (as consulted by the
`regex` pattern `\p{Alphabetic=No}`), restricted to the code points
exercised in this development: ASCII letters and the CJK Unified
Ideographs block U+4E00–U+9FFF.  Other modelled code points (ASCII digits,
punctuation, whitespace) are not alphabetic. -/
def isAlphabetic (c : Char) : Bool :=
  let n := c.toNat
  (97 ≤ n && n ≤ 122) || (65 ≤ n && n ≤ 90) || (0x4e00 ≤ n && n ≤ 0x9fff)

/-- Model of the Unicode `Script` property (as consulted by the `regex`
pattern `\p{^Script=...}`), restricted to the code points exercised here:
CJK Unified Ideographs are `Han`, ASCII letters are `Latin`, everything
else modelled is `Common`. -/
def uScript (c : Char) : String :=
  let n := c.toNat
  if 0x4e00 ≤ n && n ≤ 0x9fff then "Han"
  else if (97 ≤ n && n ≤ 122) || (65 ≤ n && n ≤ 90) then "Latin"
  else "Common"

/-- Model of the `regex` module's validation of a `Script=` property value:
compiling `\p{^Script=v}` succeeds exactly when `v` names a Unicode
script.  Restricted to the names appearing in this repository; note that
language codes such as `zh` or `en` are not Unicode script names, so
compiling with them raises an error. -/
def isValidScript (v : String) : Bool :=
  v == "Han" || v == "Latin" || v == "Hangul" || v == "Arabic" || v == "Thai"

/-- ASCII alphanumeric, the character class `[a-zA-Z0-9]` of
`AugumentForZhFilter.en_word_regex`. -/
def isAlnumAscii (c : Char) : Bool :=
  let n := c.toNat
  (97 ≤ n && n ≤ 122) || (65 ≤ n && n ≤ 90) || (48 ≤ n && n ≤ 57)

/-! ### Python string primitives -/

/-- Remove trailing Python whitespace (the right half of `str.strip`). -/
def dropTrailingWs : List Char → List Char
  | [] => []
  | c :: rest =>
    match dropTrailingWs rest with
    | [] => if isPySpace c then [] else [c]
    | d :: ds => c :: d :: ds

/-- Python `str.strip()`: remove leading and trailing whitespace. -/
def pyStrip (s : List Char) : List Char :=
  dropTrailingWs (s.dropWhile isPySpace)

/-- Python `s.replace(a, b)` for single-character `a` and `b`: since the
pattern is one character, occurrences cannot overlap and the replacement
is exactly a character-wise map. -/
def replaceChar (a b : Char) (s : List Char) : List Char :=
  s.map (fun c => if c = a then b else c)

/-- Recursion core of Python `s.replace(pat, rep)`: scan left to right,
replacing each (non-overlapping) occurrence of a non-empty `pat`.  The
`fuel` argument only bounds the recursion depth — every step consumes at
least one character, so `strReplace` below passes the string length —
and makes the function structurally recursive (hence computable by the
kernel). -/
def strReplaceAux (fuel : Nat) (s pat rep : List Char) : List Char :=
  match fuel, s with
  | _, [] => []
  | 0, s => s
  | fuel + 1, c :: rest =>
    if pat ≠ [] ∧ pat.isPrefixOf (c :: rest) then
      rep ++ strReplaceAux fuel ((c :: rest).drop pat.length) pat rep
    else
      c :: strReplaceAux fuel rest pat rep

/-- Python `s.replace(pat, rep)` for a non-empty pattern.  For an empty
pattern (never used in this repository) the string is returned
unchanged. -/
def strReplace (s pat rep : List Char) : List Char :=
  strReplaceAux s.length s pat rep

/-- Python `s.split(sep)` for a single-character separator: split at every
occurrence, keeping empty fields.  The result is always non-empty. -/
def splitChar (sep : Char) : List Char → List (List Char)
  | [] => [[]]
  | c :: rest =>
    if c = sep then [] :: splitChar sep rest
    else
      match splitChar sep rest with
      | [] => [[c]]
      | t :: ts => (c :: t) :: ts

/-- Maximal runs of characters satisfying `p` (used for whitespace
tokenisation `str.split()` and for `re.finditer` over a character class),
with an accumulator holding the current run reversed. -/
def tokenRuns (p : Char → Bool) : List Char → List Char → List (List Char)
  | [], acc => if acc.isEmpty then [] else [acc.reverse]
  | c :: rest, acc =>
    if p c then tokenRuns p rest (c :: acc)
    else if acc.isEmpty then tokenRuns p rest []
    else acc.reverse :: tokenRuns p rest []

/-- Python `str.split()` with no argument: whitespace-delimited tokens,
empty tokens dropped. -/
def pySplit (s : List Char) : List (List Char) :=
  tokenRuns (fun c => !isPySpace c) s []

/-- First index at or after `base` (in the absolute numbering) where `c`
occurs in the remaining list `s`. -/
def charFindAux (c : Char) : List Char → Nat → Option Nat
  | [], _ => none
  | x :: xs, i => if x = c then some i else charFindAux c xs (i + 1)

/-- Python `s.find(c)` for a single character, with `-1` modelled as
`none`. -/
def charFind (s : List Char) (c : Char) : Option Nat :=
  charFindAux c s 0

/-- Python `s.find(c, start)`: search `s[start:]`, reporting an absolute
index. -/
def charFindFrom (s : List Char) (c : Char) (start : Nat) : Option Nat :=
  charFindAux c (s.drop start) start

/-- Python `s.find(c, 0, stop)`: search `s[0:stop]`. -/
def charFindBefore (s : List Char) (c : Char) (stop : Nat) : Option Nat :=
  charFindAux c (s.take stop) 0

/-- Python `s.find(w) != -1`: `w` occurs as a contiguous substring of
`s`. -/
def containsSub (s w : List Char) : Bool :=
  match s with
  | [] => w.isEmpty
  | _ :: rest => w.isPrefixOf s || containsSub rest w

/-- Python `max` over a list of naturals; `none` models the `ValueError`
raised on an empty sequence. -/
def listMax : List Nat → Option Nat
  | [] => none
  | x :: xs => some (xs.foldl Nat.max x)

/-- Python `str.upper()` on one character, restricted to the code points
exercised here: ASCII letters map by the usual offset, `ß` (U+00DF) has
the full uppercase mapping `SS`, and every other modelled character is
unchanged. -/
def pyCharUpper (c : Char) : List Char :=
  let n := c.toNat
  if 97 ≤ n && n ≤ 122 then [Char.ofNat (n - 32)]
  else if n = 0xdf then ['S', 'S']
  else [c]

/-- Python `str.lower()` on one character, restricted likewise: ASCII
uppercase letters map down, every other modelled character (including
`ß`) is unchanged. -/
def pyCharLower (c : Char) : List Char :=
  let n := c.toNat
  if 65 ≤ n && n ≤ 90 then [Char.ofNat (n + 32)]
  else [c]

/-- Python `str.upper()` on a string. -/
def pyUpper (s : List Char) : List Char :=
  s.foldr (fun c acc => pyCharUpper c ++ acc) []

/-- Python `str.lower()` on a string. -/
def pyLower (s : List Char) : List Char :=
  s.foldr (fun c acc => pyCharLower c ++ acc) []

/-- The single-character value of `pyCharUpper` on an ASCII character
(where the `ß` branch cannot fire). -/
def upCharAscii (c : Char) : Char :=
  if 97 ≤ c.toNat && c.toNat ≤ 122 then Char.ofNat (c.toNat - 32) else c

/-! ### Normalizers (`yimt/corpus/normalizers.py`) -/

/-- Does the optional neighbour exist and fail the ASCII test?  This is the
`i > 0 and not is_ascii_char(s[i-1])` (resp. `i < len(s)-1 and not
is_ascii_char(s[i+1])`) test of `SpaceNormalizer.normalize`. -/
def nonAsciiOpt (asciiP : Char → Bool) : Option Char → Bool
  | none => false
  | some c => !asciiP c

/-- The final loop of `SpaceNormalizer.normalize`: drop every `' '` whose
neighbour on either side, in the original string, is non-ASCII.  `prev`
is the character at `i - 1` in the original string (`none` at `i = 0`). -/
def rmSpaces (asciiP : Char → Bool) (prev : Option Char) : List Char → List Char
  | [] => []
  | c :: rest =>
    if c = ' ' && (nonAsciiOpt asciiP prev || nonAsciiOpt asciiP rest.head?) then
      rmSpaces asciiP (some c) rest
    else
      c :: rmSpaces asciiP (some c) rest

/-- Recursion core of the `re.sub(r"\s{2,}", " ", s)` step: each maximal
run of two or more whitespace characters is replaced by a single ASCII
space; an isolated whitespace character is left alone.  As with
`strReplaceAux`, `fuel` only bounds the recursion depth (every step
consumes at least one character); `collapseWs` passes the string
length. -/
def collapseWsAux (fuel : Nat) (s : List Char) : List Char :=
  match fuel, s with
  | _, [] => []
  | _, [c] => [c]
  | 0, s => s
  | fuel + 1, c :: d :: rest =>
    if isPySpace c then
      if isPySpace d then ' ' :: collapseWsAux fuel (rest.dropWhile isPySpace)
      else c :: collapseWsAux fuel (d :: rest)
    else c :: collapseWsAux fuel (d :: rest)

/-- The whitespace-run collapsing step of `SpaceNormalizer.normalize`. -/
def collapseWs (s : List Char) : List Char :=
  collapseWsAux s.length s

/-- `SpaceNormalizer.normalize`: strip, map ideographic space (U+3000) and
no-break space (U+00A0) to ASCII space, collapse whitespace runs, strip
again, then remove the spaces with a non-ASCII neighbour.  The ASCII test
`is_ascii_char` (imported from the utilities module) is a parameter. -/
def spaceNormalize (asciiP : Char → Bool) (s : List Char) : List Char :=
  let s1 := pyStrip s
  let s2 := replaceChar '　' ' ' s1
  let s3 := replaceChar '\xa0' ' ' s2
  let s4 := collapseWs s3
  let s5 := pyStrip s4
  rmSpaces asciiP none s5

/-- The character test of `NoPrintNormalizer.normalize`: C0 controls other
than tab, and DEL, are dropped. -/
def isNoPrint (c : Char) : Bool :=
  let n := c.toNat
  n ≤ 8 || (10 ≤ n && n ≤ 31) || n == 127

/-- `NoPrintNormalizer.normalize`: keep exactly the characters that are not
dropped control characters. -/
def noPrintNormalize (s : List Char) : List Char :=
  s.filter (fun c => !isNoPrint c)

/-- The `punct_pairs` table of `normalizers.py`.  Note the second entry
pairs the straight double quote with itself. -/
def punct_pairs : List (Char × Char) :=
  [('“', '”'), ('"', '"'), ('‘', '’'), ('（', '）'), ('《', '》'), ('(', ')')]

/-- The four `replace` calls opening `normalize_pair_punct`: doubled
opening brackets are removed, tripled reduced, and the same for closing
brackets. -/
def collapsePhase (l r : Char) (s : List Char) : List Char :=
  strReplace (strReplace (strReplace (strReplace s [l, l] []) [l, l, l] [l]) [r, r] []) [r, r, r] [r]

/-- The opening-bracket deletion step of `normalize_pair_punct`: find the
first occurrence of `l`; if no `r` occurs after it, delete it. -/
def deleteUnmatchedLeft (l r : Char) (s : List Char) : List Char :=
  match charFind s l with
  | none => s
  | some idx =>
    match charFindFrom s r (idx + 1) with
    | some _ => s
    | none => s.take idx ++ s.drop (idx + 1)

/-- The closing-bracket deletion step of `normalize_pair_punct`: find the
first occurrence of `r`; if no `l` occurs before it, delete it. -/
def deleteUnmatchedRight (l r : Char) (s : List Char) : List Char :=
  match charFind s r with
  | none => s
  | some idx =>
    match charFindBefore s l idx with
    | some _ => s
    | none => s.take idx ++ s.drop (idx + 1)

/-- `normalize_pair_punct(s, left_punct, right_punct)` from
`normalizers.py`. -/
def normalize_pair_punct (l r : Char) (s : List Char) : List Char :=
  deleteUnmatchedRight l r (deleteUnmatchedLeft l r (collapsePhase l r s))

/-- `PairPunctNormalizer.normalize_pair`: fold `normalize_pair_punct` over
`punct_pairs` on both sides. -/
def normalizePunctPair (src tgt : List Char) : List Char × List Char :=
  punct_pairs.foldl
    (fun p q => (normalize_pair_punct q.1 q.2 p.1, normalize_pair_punct q.1 q.2 p.2)) (src, tgt)

/-- `PairPunctNormalizer.normalize`: split on tab and access fields 0 and
1.  When the input contains no tab the subscript `pair[1]` raises
`IndexError`, modelled by `none`. -/
def pairPunctNormalize (s : List Char) : Option (List Char) :=
  match splitChar '\t' s with
  | src :: tgt :: _ =>
    let p := normalizePunctPair src tgt
    some (p.1 ++ '\t' :: p.2)
  | _ => none

/-- `Hant2Hans.normalize`, with the Traditional-to-Simplified character
conversion `hant_2_hans` (from the utilities module) as a parameter: if
the input does not split into exactly two tab-separated fields it is
returned unchanged. -/
def hant2Hans (h2h : List Char → List Char) (normSrc normTgt : Bool) (s : List Char) : List Char :=
  if !normSrc && !normTgt then s
  else
    match splitChar '\t' s with
    | [src, tgt] =>
      (if normSrc then h2h src else src) ++ '\t' :: (if normTgt then h2h tgt else tgt)
    | _ => s

/-! ### Filters (`yimt/corpus/filters.py`)

A filter's result type is `Option (List Char × List Char)` (`none` =
Python `None`, reject).  Filters that can raise get an extra outer
`Option` whose `none` is the exception. -/

/-- `SameFilter.filter`: reject when the trimmed (and, with `lower`,
lowercased) sides are equal. -/
def sameFilter (lower : Bool) (src tgt : List Char) : Option (List Char × List Char) :=
  if lower then
    if pyLower (pyStrip src) = pyLower (pyStrip tgt) then none else some (src, tgt)
  else
    if pyStrip src = pyStrip tgt then none else some (src, tgt)

/-- `HasZhFilter.filter`, with the CJK test `has_zh` (from the utilities
module) as a parameter. -/
def hasZhFilter (has_zh : List Char → Bool) (filterSrc : Bool) (src tgt : List Char) :
    Option (List Char × List Char) :=
  if filterSrc then
    if has_zh src then none else some (src, tgt)
  else
    if has_zh tgt then none else some (src, tgt)

/-- `OverlapFilter.filter`, with `difflib.SequenceMatcher(None, src,
tgt).ratio()` as an opaque parameter. -/
def overlapFilter (ratioFn : List Char → List Char → ℚ) (ratio : ℚ) (src tgt : List Char) :
    Option (List Char × List Char) :=
  if ratioFn src tgt > ratio then none else some (src, tgt)

/-- `EmptyFilter.filter`: reject when either trimmed side is empty. -/
def emptyFilter (src tgt : List Char) : Option (List Char × List Char) :=
  if (pyStrip src).length = 0 ∨ (pyStrip tgt).length = 0 then none
  else some (src, tgt)

/-- `AllASCII.filter`: reject when both sides are fully ASCII. -/
def allASCIIFilter (src tgt : List Char) : Option (List Char × List Char) :=
  if is_ascii src && is_ascii tgt then none else some (src, tgt)

/-- `ASCIIRatioFilter.n_ascii`. -/
def n_ascii (s : List Char) : Nat :=
  (s.filter is_ascii_char).length

/-- `ASCIIRatioFilter.filter`: on each configured side, reject when the
ASCII fraction exceeds the threshold.  The division `n_ascii(s)/len(s)`
raises `ZeroDivisionError` (`none`) when the side is empty; Python's
`and` short-circuits, so a side divides only when its flag is set. -/
def asciiRatioFilter (threshold : ℚ) (filterSrc filterTgt : Bool) (src tgt : List Char) :
    Option (Option (List Char × List Char)) :=
  let tgtCheck : Option (Option (List Char × List Char)) :=
    if filterTgt then
      if tgt.length = 0 then none
      else if (n_ascii tgt : ℚ) / (tgt.length : ℚ) > threshold then some none
      else some (some (src, tgt))
    else some (some (src, tgt))
  if filterSrc then
    if src.length = 0 then none
    else if (n_ascii src : ℚ) / (src.length : ℚ) > threshold then some none
    else tgtCheck
  else tgtCheck

/-- `LangFilter.filter`, with the external `detect_lang` as a
parameter. -/
def langFilter (detect_lang : List Char → String) (srcLang tgtLang : String)
    (src tgt : List Char) : Option (List Char × List Char) :=
  if detect_lang src ≠ srcLang ∨ detect_lang tgt ≠ tgtLang then none
  else some (src, tgt)

/-- Is the value below an optional lower bound (`None` bounds never
fire)? -/
def belowMin (bound : Option Nat) (v : Nat) : Bool :=
  match bound with
  | none => false
  | some m => v < m

/-- Is the value above an optional upper bound? -/
def aboveMax (bound : Option Nat) (v : Nat) : Bool :=
  match bound with
  | none => false
  | some m => v > m

/-- `LenFilter.filter`: per-side length bounds with pluggable length
functions. -/
def lenFilter (srcLenFn tgtLenFn : List Char → Nat)
    (srcMin srcMax tgtMin tgtMax : Option Nat) (src tgt : List Char) :
    Option (List Char × List Char) :=
  let srcLen := srcLenFn src
  let tgtLen := tgtLenFn tgt
  if belowMin srcMin srcLen then none
  else if aboveMax srcMax srcLen then none
  else if belowMin tgtMin tgtLen then none
  else if aboveMax tgtMax tgtLen then none
  else some (src, tgt)

/-- `LenDiffFilter.filter`: keep exactly when
`len_src <= ratio * len_tgt` and `len_tgt <= ratio * len_src`. -/
def lenDiffFilter (ratio : ℚ) (srcLenFn tgtLenFn : List Char → Nat) (src tgt : List Char) :
    Option (List Char × List Char) :=
  let lenSrc := srcLenFn src
  let lenTgt := tgtLenFn tgt
  if (lenSrc : ℚ) ≤ ratio * (lenTgt : ℚ) ∧ (lenTgt : ℚ) ≤ ratio * (lenSrc : ℚ) then
    some (src, tgt)
  else none

/-- `LengthFilter.filter`: per-side bounds followed by the same symmetric
ratio test as `LenDiffFilter`. -/
def lengthFilter (srcLenFn tgtLenFn : List Char → Nat)
    (srcMin srcMax tgtMin tgtMax : Option Nat) (ratio : ℚ) (src tgt : List Char) :
    Option (List Char × List Char) :=
  let srcLen := srcLenFn src
  let tgtLen := tgtLenFn tgt
  if belowMin srcMin srcLen then none
  else if aboveMax srcMax srcLen then none
  else if belowMin tgtMin tgtLen then none
  else if aboveMax tgtMax tgtLen then none
  else if (srcLen : ℚ) ≤ ratio * (tgtLen : ℚ) ∧ (tgtLen : ℚ) ≤ ratio * (srcLen : ℚ) then
    some (src, tgt)
  else none

/-- `LongWordFilter.filter`: reject when some whitespace-delimited token
of a configured side is longer than that side's maximum.
`max([len(w) for w in s.split()])` raises `ValueError` (`none`) when the
side has no tokens. -/
def longWordFilter (srcMax tgtMax : Option Nat) (src tgt : List Char) :
    Option (Option (List Char × List Char)) :=
  if srcMax = none ∧ tgtMax = none then some (some (src, tgt))
  else
    let tgtCheck : Option (Option (List Char × List Char)) :=
      match tgtMax with
      | none => some (some (src, tgt))
      | some m =>
        match listMax ((pySplit tgt).map List.length) with
        | none => none
        | some mx => if mx > m then some none else some (some (src, tgt))
    match srcMax with
    | none => tgtCheck
    | some m =>
      match listMax ((pySplit src).map List.length) with
      | none => none
      | some mx => if mx > m then some none else tgtCheck

/-- `AlphabetRatioFilter.score`: the fraction of alphabetic characters,
with the denominator optionally excluding whitespace.  The division
raises `ZeroDivisionError` (`none`) when the denominator string is
empty. -/
def alphabetRatioScore (excludeWhitespace : Bool) (s : List Char) : Option ℚ :=
  let segment := if excludeWhitespace then s.filter (fun c => !isPySpace c) else s
  let alphas := s.filter isAlphabetic
  if segment.length = 0 then none
  else some ((alphas.length : ℚ) / (segment.length : ℚ))

/-- `AlphabetRatioFilter.filter`: keep only when both scores reach the
threshold; Python's `and` short-circuits, so the target score is not
computed when the source already fails. -/
def alphabetRatioFilter (threshold : ℚ) (excludeWhitespace : Bool) (src tgt : List Char) :
    Option (Option (List Char × List Char)) :=
  match alphabetRatioScore excludeWhitespace src with
  | none => none
  | some s0 =>
    if s0 ≥ threshold then
      match alphabetRatioScore excludeWhitespace tgt with
      | none => none
      | some s1 => if s1 ≥ threshold then some (some (src, tgt)) else some none
    else some none

/-- The `lang2script` class attribute of `CharacterRatioFilter` (defined
in the source but never consulted by `__init__` or `filter`). -/
def lang2script : List (String × String) :=
  [("zh", "Han"), ("en", "Latin"), ("ko", "Hangul"), ("ar", "Arabic"), ("th", "Thai")]

/-- `CharacterRatioFilter.__init__`: store the script list and thresholds
(defaulting to all 1) and compile one `\p{^Script=s}` pattern per entry;
compilation raises (`none`) when an entry is not a Unicode script
name. -/
def characterRatioInit (scripts : List String) (thresholds : Option (List ℚ)) :
    Option (List String × List ℚ) :=
  if scripts.all isValidScript then
    some (scripts, thresholds.getD (List.replicate scripts.length 1))
  else none

/-- `CharacterRatioFilter.score`: among alphabetic characters, the
fraction belonging to script number `idx`; `0` when there are no
alphabetic characters (the script pattern, hence the index, is only used
when some exist; an out-of-range index raises `IndexError`). -/
def characterRatioScore (scripts : List String) (sent : List Char) (idx : Nat) : Option ℚ :=
  let alphas := sent.filter isAlphabetic
  if alphas.isEmpty then some 0
  else
    match scripts[idx]? with
    | none => none
    | some sc => some (((alphas.filter (fun c => uScript c = sc)).length : ℚ) / (alphas.length : ℚ))

/-- `CharacterRatioFilter.filter`: reject when either side's score is
below its threshold; `or` short-circuits left to right. -/
def characterRatioFilter (scripts : List String) (thresholds : List ℚ) (src tgt : List Char) :
    Option (Option (List Char × List Char)) :=
  match characterRatioScore scripts src 0 with
  | none => none
  | some s0 =>
    match thresholds[0]? with
    | none => none
    | some t0 =>
      if s0 < t0 then some none
      else
        match characterRatioScore scripts tgt 1 with
        | none => none
        | some s1 =>
          match thresholds[1]? with
          | none => none
          | some t1 => if s1 < t1 then some none else some (some (src, tgt))

/-- Construction followed by filtering: `CharacterRatioFilter(scripts,
thresholds).filter(src, tgt)`. -/
def characterRatioRun (scripts : List String) (thresholds : Option (List ℚ))
    (src tgt : List Char) : Option (Option (List Char × List Char)) :=
  match characterRatioInit scripts thresholds with
  | none => none
  | some st => characterRatioFilter st.1 st.2 src tgt

/-- `AugumentForZhFilter._get_en_words`: the maximal `[a-zA-Z0-9]+` runs,
in order. -/
def getEnWords (s : List Char) : List (List Char) :=
  tokenRuns isAlnumAscii s []

/-- `AugumentForZhFilter.filter`: reject unless every alphanumeric word of
each side occurs verbatim in the other side. -/
def augumentForZhFilter (src tgt : List Char) : Option (List Char × List Char) :=
  if !((getEnWords src).all (containsSub tgt)) then none
  else if !((getEnWords tgt).all (containsSub src)) then none
  else some (src, tgt)

/-- Adjacent-pairs predicate: `R` holds between every two neighbouring
characters. -/
def chainP (R : Char → Char → Prop) : List Char → Prop
  | [] => True
  | [_] => True
  | a :: b :: l => R a b ∧ chainP R (b :: l)

/-- Two neighbours are not both Python whitespace. -/
def noTwoWsRel (a b : Char) : Prop := ¬(isPySpace a = true ∧ isPySpace b = true)

/-- No two adjacent characters are Python whitespace. -/
def noTwoWs (s : List Char) : Prop := chainP noTwoWsRel s

/-- The neighbour invariant that `SpaceNormalizer` output satisfies: no
two adjacent whitespace characters, and every ASCII space has neighbours
passing the ASCII test. -/
def goodAdj (asciiP : Char → Bool) (a b : Char) : Prop :=
  noTwoWsRel a b ∧ (a = ' ' → asciiP b = true) ∧ (b = ' ' → asciiP a = true)

/-- Prepend an optional previous character. -/
def optCons : Option Char → List Char → List Char
  | none, xs => xs
  | some v, xs => v :: xs

/-- The full fixed-point invariant of `SpaceNormalizer.normalize`: no
ideographic or no-break space remains, the neighbour invariant holds, and
the string neither starts nor ends with whitespace. -/
def GoodSpace (asciiP : Char → Bool) (y : List Char) : Prop :=
  (∀ x ∈ y, x ≠ '　' ∧ x ≠ '\xa0')
  ∧ chainP (goodAdj asciiP) y
  ∧ (∀ c, y.head? = some c → isPySpace c = false)
  ∧ (∀ c, y.getLast? = some c → isPySpace c = false)

/-- Position `i` holds the first occurrence of `c` in `s`. -/
def firstOccAt (s : List Char) (c : Char) (i : Nat) : Prop :=
  s[i]? = some c ∧ ∀ k, k < i → s[k]? ≠ some c

/-! ### Helper lemmas -/

/-- Replacing in the empty string gives the empty string. -/
theorem strReplace_nil_pat (pat rep : List Char) : strReplace [] pat rep = [] := rfl

/-- Replacing `cc` by the empty string in a run of `n` copies of `c`
leaves `n mod 2` copies, for any sufficient fuel. -/
theorem strReplaceAux_replicate_two (c : Char) :
    ∀ (n fuel : Nat), n ≤ fuel →
      strReplaceAux fuel (List.replicate n c) [c, c] [] = List.replicate (n % 2) c := by
  intro n
  induction n using Nat.strong_induction_on with
  | _ n ih =>
    intro fuel hfuel
    match n, fuel with
    | 0, _ => rw [List.replicate, strReplaceAux]
    | 1, fuel + 1 =>
      rw [List.replicate, List.replicate, strReplaceAux]
      rw [if_neg (by simp [List.isPrefixOf])]
      rw [strReplaceAux]
    | m + 2, fuel + 1 =>
      have hrep : List.replicate (m + 2) c = c :: c :: List.replicate m c := by
        simp [List.replicate]
      rw [hrep, strReplaceAux]
      rw [if_pos ⟨by simp, by simp [List.isPrefixOf]⟩]
      simp only [List.drop_succ_cons, List.drop_zero, List.nil_append, List.length_cons,
        List.length_nil]
      have hm : (m + 2) % 2 = m % 2 := by omega
      rw [hm, ih m (by omega) fuel (by omega)]

/-- A run of `n` copies of `c` collapses to `n mod 2` copies under the
doubled-bracket replacement. -/
theorem strReplace_replicate_two (c : Char) (n : Nat) :
    strReplace (List.replicate n c) [c, c] [] = List.replicate (n % 2) c := by
  unfold strReplace
  rw [strReplaceAux_replicate_two c n (List.replicate n c).length (by simp)]

/-- Replacement whose pattern starts with an absent character is the
identity. -/
theorem strReplaceAux_not_mem (c : Char) (pat' rep : List Char) :
    ∀ (fuel : Nat) (s : List Char), c ∉ s → strReplaceAux fuel s (c :: pat') rep = s := by
  intro fuel
  induction fuel with
  | zero =>
    intro s _
    match s with
    | [] => rfl
    | d :: rest => rfl
  | succ f ih =>
    intro s h
    match s with
    | [] => rw [strReplaceAux]
    | d :: rest =>
      rw [strReplaceAux]
      rw [if_neg]
      · rw [ih rest (fun hm => h (List.mem_cons_of_mem d hm))]
      · intro hx
        have hpre := hx.2
        simp only [List.isPrefixOf, Bool.and_eq_true, beq_iff_eq] at hpre
        exact h (hpre.1 ▸ List.mem_cons_self d rest)

/-- Wrapper of `strReplaceAux_not_mem` at the canonical fuel. -/
theorem strReplace_not_mem (c : Char) (pat' rep s : List Char) (h : c ∉ s) :
    strReplace s (c :: pat') rep = s :=
  strReplaceAux_not_mem c pat' rep s.length s h

/-- A pattern of two or more characters never matches inside a
one-character string. -/
theorem strReplaceAux_singleton_long (a c d : Char) (pat' rep : List Char) (fuel : Nat) :
    strReplaceAux fuel [a] (c :: d :: pat') rep = [a] := by
  match fuel with
  | 0 => rfl
  | f + 1 =>
    rw [strReplaceAux]
    rw [if_neg]
    · rw [strReplaceAux]
    · intro hx
      have hpre := hx.2
      simp [List.isPrefixOf] at hpre

/-- Wrapper of `strReplaceAux_singleton_long` at the canonical fuel. -/
theorem strReplace_singleton_long (a c d : Char) (pat' rep : List Char) :
    strReplace [a] (c :: d :: pat') rep = [a] :=
  strReplaceAux_singleton_long a c d pat' rep 1

/-- The whole collapse phase of `normalize_pair_punct` sends a run of `n`
opening brackets to `n mod 2` of them: in particular a doubled bracket is
removed entirely and a tripled bracket becomes a single one. -/
theorem collapsePhase_replicate_left (l r : Char) (n : Nat) :
    collapsePhase l r (List.replicate n l) = List.replicate (n % 2) l := by
  unfold collapsePhase
  rw [strReplace_replicate_two l n]
  have h2 : n % 2 = 0 ∨ n % 2 = 1 := by omega
  rcases h2 with h2 | h2 <;> rw [h2]
  · rw [show List.replicate 0 l = ([] : List Char) from rfl]
    rw [strReplace_nil_pat, strReplace_nil_pat, strReplace_nil_pat]
  · rw [show List.replicate 1 l = [l] from rfl]
    rw [strReplace_singleton_long, strReplace_singleton_long, strReplace_singleton_long]

/-- The collapse phase likewise sends a run of `n` closing brackets to
`n mod 2` of them (this also covers the straight-double-quote pair, whose
opening and closing characters coincide). -/
theorem collapsePhase_replicate_right (l r : Char) (n : Nat) :
    collapsePhase l r (List.replicate n r) = List.replicate (n % 2) r := by
  unfold collapsePhase
  by_cases hlr : l = r
  · subst hlr
    rw [strReplace_replicate_two l n]
    have h2 : n % 2 = 0 ∨ n % 2 = 1 := by omega
    rcases h2 with h2 | h2 <;> rw [h2]
    · rw [show List.replicate 0 l = ([] : List Char) from rfl]
      rw [strReplace_nil_pat, strReplace_nil_pat, strReplace_nil_pat]
    · rw [show List.replicate 1 l = [l] from rfl]
      rw [strReplace_singleton_long, strReplace_singleton_long, strReplace_singleton_long]
  · have hnm : l ∉ List.replicate n r := by
      intro hm
      exact hlr (List.eq_of_mem_replicate hm)
    rw [strReplace_not_mem l [l] [] _ hnm, strReplace_not_mem l [l, l] [l] _ hnm]
    rw [strReplace_replicate_two r n]
    have h2 : n % 2 = 0 ∨ n % 2 = 1 := by omega
    rcases h2 with h2 | h2 <;> rw [h2]
    · rw [show List.replicate 0 r = ([] : List Char) from rfl]
      rw [strReplace_nil_pat]
    · rw [show List.replicate 1 r = [r] from rfl]
      rw [strReplace_singleton_long]

/-- A character search fails exactly when the character is absent. -/
theorem charFindAux_eq_none_iff (c : Char) :
    ∀ (xs : List Char) (b : Nat), charFindAux c xs b = none ↔ c ∉ xs := by
  intro xs
  induction xs with
  | nil => intro b; simp [charFindAux]
  | cons x rest ih =>
    intro b
    unfold charFindAux
    split <;> rename_i hx
    · subst hx
      simp
    · rw [ih (b + 1)]
      constructor
      · intro hm
        simp only [List.mem_cons, not_or]
        exact ⟨fun h => hx h.symm, hm⟩
      · intro hm
        simp only [List.mem_cons, not_or] at hm
        exact hm.2

/-- A character search returns the first occurrence, shifted by the
base index. -/
theorem charFindAux_of_firstOcc (c : Char) :
    ∀ (xs : List Char) (i b : Nat), xs[i]? = some c → (∀ k, k < i → xs[k]? ≠ some c) →
      charFindAux c xs b = some (b + i) := by
  intro xs
  induction xs with
  | nil => intro i b hi _; simp at hi
  | cons x rest ih =>
    intro i b hi hk
    unfold charFindAux
    split <;> rename_i hx
    · subst hx
      match i with
      | 0 => rfl
      | j + 1 =>
        exact absurd (by simp : (x :: rest)[0]? = some x) (hk 0 (by omega))
    · match i with
      | 0 =>
        simp only [List.getElem?_cons_zero, Option.some_inj] at hi
        exact absurd hi hx
      | j + 1 =>
        simp only [List.getElem?_cons_succ] at hi
        have hk' : ∀ k, k < j → rest[k]? ≠ some c := by
          intro k hkj
          have := hk (k + 1) (by omega)
          simpa using this
        rw [ih j (b + 1) hi hk']
        congr 1
        omega

/-- The opening-bracket deletion step deletes the first occurrence of the
opening bracket exactly when no closing bracket occurs after it, and
otherwise deletes nothing. -/
theorem deleteUnmatchedLeft_spec (l r : Char) (s : List Char) (i : Nat)
    (hfo : firstOccAt s l i) :
    ((∃ j, i < j ∧ s[j]? = some r) → deleteUnmatchedLeft l r s = s)
    ∧ ((∀ j, i < j → s[j]? ≠ some r) → deleteUnmatchedLeft l r s = s.eraseIdx i) := by
  have hfind : charFind s l = some i := by
    have := charFindAux_of_firstOcc l s i 0 hfo.1 hfo.2
    simpa [charFind] using this
  constructor
  · rintro ⟨j, hij, hj⟩
    have hmem : r ∈ s.drop (i + 1) := by
      rw [List.mem_iff_getElem?]
      refine ⟨j - (i + 1), ?_⟩
      rw [List.getElem?_drop]
      have : i + 1 + (j - (i + 1)) = j := by omega
      rw [this]
      exact hj
    unfold deleteUnmatchedLeft
    rw [hfind]
    dsimp only
    rcases hfind2 : charFindFrom s r (i + 1) with _ | v
    · exfalso
      unfold charFindFrom at hfind2
      exact (charFindAux_eq_none_iff r _ _ |>.mp hfind2) hmem
    · rfl
  · intro hj
    have hnm : r ∉ s.drop (i + 1) := by
      intro hm
      rw [List.mem_iff_getElem?] at hm
      obtain ⟨k, hk⟩ := hm
      rw [List.getElem?_drop] at hk
      exact hj (i + 1 + k) (by omega) hk
    have hfind2 : charFindFrom s r (i + 1) = none := by
      unfold charFindFrom
      exact (charFindAux_eq_none_iff r _ _).mpr hnm
    unfold deleteUnmatchedLeft
    rw [hfind]
    dsimp only
    rw [hfind2, List.eraseIdx_eq_take_drop_succ]

/-- Without any opening bracket the opening-deletion step is the
identity. -/
theorem deleteUnmatchedLeft_no_left (l r : Char) (s : List Char) (h : l ∉ s) :
    deleteUnmatchedLeft l r s = s := by
  have hfind : charFind s l = none := (charFindAux_eq_none_iff l s 0).mpr h
  unfold deleteUnmatchedLeft
  rw [hfind]

/-- The closing-bracket deletion step deletes the first occurrence of the
closing bracket exactly when no opening bracket occurs before it, and
otherwise deletes nothing. -/
theorem deleteUnmatchedRight_spec (l r : Char) (s : List Char) (i : Nat)
    (hfo : firstOccAt s r i) :
    ((∃ j, j < i ∧ s[j]? = some l) → deleteUnmatchedRight l r s = s)
    ∧ ((∀ j, j < i → s[j]? ≠ some l) → deleteUnmatchedRight l r s = s.eraseIdx i) := by
  have hfind : charFind s r = some i := by
    have := charFindAux_of_firstOcc r s i 0 hfo.1 hfo.2
    simpa [charFind] using this
  constructor
  · rintro ⟨j, hij, hj⟩
    have hmem : l ∈ s.take i := by
      rw [List.mem_iff_getElem?]
      exact ⟨j, by rw [List.getElem?_take_of_lt hij]; exact hj⟩
    unfold deleteUnmatchedRight
    rw [hfind]
    dsimp only
    rcases hfind2 : charFindBefore s l i with _ | v
    · exfalso
      unfold charFindBefore at hfind2
      exact (charFindAux_eq_none_iff l _ _ |>.mp hfind2) hmem
    · rfl
  · intro hj
    have hnm : l ∉ s.take i := by
      intro hm
      rw [List.mem_iff_getElem?] at hm
      obtain ⟨k, hk⟩ := hm
      by_cases hki : k < i
      · rw [List.getElem?_take_of_lt hki] at hk
        exact hj k hki hk
      · rw [List.getElem?_take_eq_none (by omega)] at hk
        exact Option.noConfusion hk
    have hfind2 : charFindBefore s l i = none := by
      unfold charFindBefore
      exact (charFindAux_eq_none_iff l _ _).mpr hnm
    unfold deleteUnmatchedRight
    rw [hfind]
    dsimp only
    rw [hfind2, List.eraseIdx_eq_take_drop_succ]

/-- Without any closing bracket the closing-deletion step is the
identity. -/
theorem deleteUnmatchedRight_no_right (l r : Char) (s : List Char) (h : r ∉ s) :
    deleteUnmatchedRight l r s = s := by
  have hfind : charFind s r = none := (charFindAux_eq_none_iff r s 0).mpr h
  unfold deleteUnmatchedRight
  rw [hfind]

/-- Once the accumulator is non-empty, `tokenRuns` yields at least one
token. -/
theorem tokenRuns_ne_nil_of_acc (p : Char → Bool) :
    ∀ (s acc : List Char), acc ≠ [] → tokenRuns p s acc ≠ [] := by
  intro s
  induction s with
  | nil =>
    intro acc hacc
    simp [tokenRuns, List.isEmpty_iff, hacc]
  | cons c rest ih =>
    intro acc hacc
    unfold tokenRuns
    split
    · exact ih (c :: acc) (by simp)
    · split
      · simp_all [List.isEmpty_iff]
      · simp

/-- A string of Python whitespace has no whitespace-delimited tokens. -/
theorem pySplit_eq_nil_of_all_ws (s : List Char) (h : s.all isPySpace = true) :
    pySplit s = [] := by
  unfold pySplit
  induction s with
  | nil => rfl
  | cons c rest ih =>
    simp only [List.all_cons, Bool.and_eq_true] at h
    unfold tokenRuns
    have : (!isPySpace c) = false := by simp [h.1]
    simp only [this, Bool.false_eq_true, if_false, List.isEmpty_nil, if_true]
    exact ih h.2

/-- A string with a non-whitespace character has at least one token. -/
theorem pySplit_ne_nil (s : List Char) (h : s.all isPySpace = false) :
    pySplit s ≠ [] := by
  unfold pySplit
  induction s with
  | nil => simp at h
  | cons c rest ih =>
    simp only [List.all_cons, Bool.and_eq_false_iff] at h
    unfold tokenRuns
    rcases h with h | h
    · have : (!isPySpace c) = true := by simp [h]
      simp only [this, if_true]
      exact tokenRuns_ne_nil_of_acc _ rest [c] (by simp)
    · split
      · exact tokenRuns_ne_nil_of_acc _ rest _ (by simp)
      · simp only [List.isEmpty_nil, if_true]
        exact ih h

/-- Rounding a valid code point through `Char.ofNat` preserves it. -/
theorem char_toNat_ofNat (n : Nat) (h : n < 55296) : (Char.ofNat n).toNat = n := by
  unfold Char.ofNat
  rw [dif_pos (Or.inl h)]
  rfl

/-- On an ASCII character `pyCharUpper` is the singleton of
`upCharAscii`. -/
theorem pyCharUpper_ascii (c : Char) (h : c.toNat < 128) :
    pyCharUpper c = [upCharAscii c] := by
  unfold pyCharUpper upCharAscii
  dsimp only
  split <;> rename_i h1
  · rfl
  · rw [if_neg]
    omega

/-- Code point of the uppercased ASCII lowercase letter. -/
theorem toNat_upCharAscii_of_lower (c : Char) (h1 : 97 ≤ c.toNat) (h2 : c.toNat ≤ 122) :
    (upCharAscii c).toNat = c.toNat - 32 := by
  unfold upCharAscii
  rw [if_pos (by simp [h1, h2])]
  exact char_toNat_ofNat _ (by omega)

/-- Characters other than ASCII lowercase letters are fixed by
`upCharAscii`. -/
theorem toNat_upCharAscii_of_not_lower (c : Char) (h : ¬(97 ≤ c.toNat ∧ c.toNat ≤ 122)) :
    upCharAscii c = c := by
  unfold upCharAscii
  rw [if_neg (by simpa using h)]

/-- Propositional description of the Python whitespace test. -/
theorem isPySpace_iff (c : Char) : isPySpace c = true ↔
    ((9 ≤ c.toNat ∧ c.toNat ≤ 13) ∨ (28 ≤ c.toNat ∧ c.toNat ≤ 32) ∨ c.toNat = 133
      ∨ c.toNat = 160 ∨ c.toNat = 5760 ∨ (8192 ≤ c.toNat ∧ c.toNat ≤ 8202) ∨ c.toNat = 8232
      ∨ c.toNat = 8233 ∨ c.toNat = 8239 ∨ c.toNat = 8287 ∨ c.toNat = 12288) := by
  unfold isPySpace
  simp only [Bool.or_eq_true, Bool.and_eq_true, decide_eq_true_eq, beq_iff_eq]
  tauto

/-- ASCII upcasing does not change whether a character is whitespace. -/
theorem isPySpace_upCharAscii (c : Char) : isPySpace (upCharAscii c) = isPySpace c := by
  by_cases h : 97 ≤ c.toNat ∧ c.toNat ≤ 122
  · have ht : (upCharAscii c).toNat = c.toNat - 32 := toNat_upCharAscii_of_lower c h.1 h.2
    have hA : ¬ (isPySpace (upCharAscii c) = true) := by
      rw [isPySpace_iff, ht]
      omega
    have hB : ¬ (isPySpace c = true) := by
      rw [isPySpace_iff]
      omega
    rw [Bool.not_eq_true] at hA hB
    rw [hA, hB]
  · rw [toNat_upCharAscii_of_not_lower c h]

/-- Lowercasing undoes ASCII upcasing, landing on the plain lowercase of
the character. -/
theorem pyCharLower_upCharAscii (c : Char) (h : c.toNat < 128) :
    pyCharLower (upCharAscii c) = pyCharLower c := by
  by_cases hl : 97 ≤ c.toNat ∧ c.toNat ≤ 122
  · have ht : (upCharAscii c).toNat = c.toNat - 32 := toNat_upCharAscii_of_lower c hl.1 hl.2
    unfold pyCharLower
    dsimp only
    rw [ht]
    rw [if_pos (by simp; omega), if_neg (by simp; omega)]
    have : c.toNat - 32 + 32 = c.toNat := by omega
    rw [this, Char.ofNat_toNat]
  · rw [toNat_upCharAscii_of_not_lower c hl]

/-- Dropping a prefix preserves `all`. -/
theorem all_dropWhile (p q : Char → Bool) (s : List Char) (h : s.all q = true) :
    (s.dropWhile p).all q = true := by
  induction s with
  | nil => simp
  | cons c rest ih =>
    simp only [List.all_cons, Bool.and_eq_true] at h
    rw [List.dropWhile_cons]
    split
    · exact ih h.2
    · simp [h.1, h.2]

/-- Dropping trailing whitespace preserves `all`. -/
theorem all_dropTrailingWs (q : Char → Bool) (s : List Char) (h : s.all q = true) :
    (dropTrailingWs s).all q = true := by
  induction s with
  | nil => simp [dropTrailingWs]
  | cons c rest ih =>
    simp only [List.all_cons, Bool.and_eq_true] at h
    unfold dropTrailingWs
    rcases hd : dropTrailingWs rest with _ | ⟨d, ds⟩
    · simp only [hd]
      split <;> simp [h.1]
    · have := ih h.2
      rw [hd] at this
      simp only [hd, List.all_cons, Bool.and_eq_true] at this ⊢
      exact ⟨h.1, this⟩

/-- Stripping preserves `all`. -/
theorem all_pyStrip (q : Char → Bool) (s : List Char) (h : s.all q = true) :
    (pyStrip s).all q = true :=
  all_dropTrailingWs q _ (all_dropWhile isPySpace q s h)

/-- On an all-ASCII string, `str.upper()` is the per-character map. -/
theorem pyUpper_ascii (s : List Char) (h : is_ascii s = true) :
    pyUpper s = s.map upCharAscii := by
  induction s with
  | nil => rfl
  | cons c rest ih =>
    simp only [is_ascii, List.all_cons, Bool.and_eq_true] at h
    have hc : c.toNat < 128 := by
      have := h.1
      unfold is_ascii_char at this
      simpa using this
    show pyCharUpper c ++ pyUpper rest = _
    rw [pyCharUpper_ascii c hc, ih (by simp [is_ascii, h.2])]
    rfl

/-- Leading-whitespace removal commutes with ASCII upcasing. -/
theorem dropWhile_map_upCharAscii (s : List Char) :
    List.dropWhile isPySpace (s.map upCharAscii)
      = (List.dropWhile isPySpace s).map upCharAscii := by
  induction s with
  | nil => rfl
  | cons c rest ih =>
    simp only [List.map_cons, List.dropWhile_cons, isPySpace_upCharAscii]
    split
    · exact ih
    · rfl

/-- Trailing-whitespace removal commutes with ASCII upcasing. -/
theorem dropTrailingWs_map_upCharAscii (s : List Char) :
    dropTrailingWs (s.map upCharAscii) = (dropTrailingWs s).map upCharAscii := by
  induction s with
  | nil => rfl
  | cons c rest ih =>
    simp only [List.map_cons]
    unfold dropTrailingWs
    rw [ih]
    rcases hd : dropTrailingWs rest with _ | ⟨d, ds⟩
    · simp only [List.map_nil, isPySpace_upCharAscii]
      split <;> rfl
    · rfl

/-- Stripping commutes with ASCII upcasing. -/
theorem pyStrip_map_upCharAscii (s : List Char) :
    pyStrip (s.map upCharAscii) = (pyStrip s).map upCharAscii := by
  unfold pyStrip
  rw [dropWhile_map_upCharAscii, dropTrailingWs_map_upCharAscii]

/-- On an all-ASCII string, lowercasing after upcasing equals plain
lowercasing. -/
theorem pyLower_map_upCharAscii (s : List Char) (h : is_ascii s = true) :
    pyLower (s.map upCharAscii) = pyLower s := by
  induction s with
  | nil => rfl
  | cons c rest ih =>
    simp only [is_ascii, List.all_cons, Bool.and_eq_true] at h
    have hc : c.toNat < 128 := by
      have := h.1
      unfold is_ascii_char at this
      simpa using this
    simp only [List.map_cons]
    show pyCharLower (upCharAscii c) ++ pyLower (rest.map upCharAscii)
        = pyCharLower c ++ pyLower rest
    rw [pyCharLower_upCharAscii c hc, ih (by simp [is_ascii, h.2])]

/-- `Hant2Hans.normalize` returns its input unchanged whenever the input
does not split into exactly two tab-separated fields. -/
theorem hant2Hans_malformed (h2h : List Char → List Char) (normSrc normTgt : Bool)
    (s : List Char) (h : (splitChar '\t' s).length ≠ 2) :
    hant2Hans h2h normSrc normTgt s = s := by
  unfold hant2Hans
  split
  · rfl
  · rcases hsp : splitChar '\t' s with _ | ⟨a, _ | ⟨b, _ | ⟨c, l⟩⟩⟩ <;>
      simp_all

/-! ### Claims -/

/-- C1: the claim says `ASCIIRatioFilter.filter` and
`AlphabetRatioFilter.filter` guard a zero-length (resp. zero
whitespace-excluded-length) side before dividing and never raise a
division error.  The code divides unguarded: with the default flags
(`filter_tgt=True`) an empty target makes `ASCIIRatioFilter.filter`
raise `ZeroDivisionError`, and an empty source — or, with
`exclude_whitespace`, an all-whitespace source — makes
`AlphabetRatioFilter.score` raise `ZeroDivisionError`.  Each conjunct
evaluates the embedded filter at such a failing input and obtains the
exception (`none`). -/
theorem spec_C1_division_unguarded :
    asciiRatioFilter (67 / 100) false true ['a', 'b', 'c'] [] = none
    ∧ alphabetRatioFilter (3 / 4) false [] ['x'] = none
    ∧ alphabetRatioFilter (3 / 4) true [' '] ['x'] = none := by
  refine ⟨rfl, rfl, rfl⟩

/-- C2: the claim says both pair-aware normalizers return a tab-less
input unchanged.  `Hant2Hans.normalize` does (second conjunct, and
`hant2Hans_malformed` in general), but `PairPunctNormalizer.normalize`
subscripts `pair[1]` without any guard, so on `"hello"` it raises
`IndexError` (first conjunct: the embedded normalizer returns the
exception `none`) instead of returning the input unchanged. -/
theorem spec_C2_pairpunct_unguarded :
    pairPunctNormalize ['h', 'e', 'l', 'l', 'o'] = none
    ∧ hant2Hans (fun s => s) true true ['h', 'e', 'l', 'l', 'o'] = ['h', 'e', 'l', 'l', 'o'] := by
  refine ⟨rfl, rfl⟩

/-- C3: for every ratio in `(0, 1]`, `LenDiffFilter(ratio)` keeps a pair
exactly when `len(src) <= ratio*len(tgt)` and `len(tgt) <=
ratio*len(src)` (with the default character-count length functions), and
the ratio check of `LengthFilter` (with no length bounds configured) is
governed by the same symmetric condition. -/
theorem spec_C3_len_diff_ratio (ratio : ℚ) (hpos : 0 < ratio) (hle : ratio ≤ 1)
    (src tgt : List Char) :
    (lenDiffFilter ratio List.length List.length src tgt = some (src, tgt) ↔
      (src.length : ℚ) ≤ ratio * (tgt.length : ℚ) ∧ (tgt.length : ℚ) ≤ ratio * (src.length : ℚ))
    ∧ (lengthFilter List.length List.length none none none none ratio src tgt = some (src, tgt) ↔
      (src.length : ℚ) ≤ ratio * (tgt.length : ℚ) ∧ (tgt.length : ℚ) ≤ ratio * (src.length : ℚ)) := by
  unfold lenDiffFilter lengthFilter belowMin aboveMax
  constructor <;> (dsimp only; split <;> simp_all)

/-- Witness for C3 at `ratio = 1` and the pair `("a", "a")`. -/
theorem spec_C3_witness :
    (0 : ℚ) < 1 ∧ (1 : ℚ) ≤ 1
    ∧ lenDiffFilter 1 List.length List.length ['a'] ['a'] = some (['a'], ['a']) :=
  ⟨by norm_num, by norm_num,
    ((spec_C3_len_diff_ratio 1 (by norm_num) (by norm_num) ['a'] ['a']).1).mpr (by norm_num)⟩

/-- C4: `EmptyFilter.filter(src, tgt)` is `None` exactly when one of the
two sides strips to the empty string, and otherwise it returns the pair
itself. -/
theorem spec_C4_empty_filter (src tgt : List Char) :
    (emptyFilter src tgt = none ↔ pyStrip src = [] ∨ pyStrip tgt = [])
    ∧ (emptyFilter src tgt = none ∨ emptyFilter src tgt = some (src, tgt)) := by
  have hs : ((pyStrip src).length = 0 ∨ (pyStrip tgt).length = 0) ↔
      (pyStrip src = [] ∨ pyStrip tgt = []) := by
    rw [List.length_eq_zero, List.length_eq_zero]
  unfold emptyFilter
  split <;> rename_i h
  · exact ⟨by simp [hs.mp h], Or.inl rfl⟩
  · exact ⟨⟨fun hx => absurd hx (by simp), fun hx => absurd (hs.mpr hx) h⟩, Or.inr rfl⟩

/-- C5, counterexample: on `"()("` (for the ASCII parenthesis pair) the
code deletes nothing — the opening bracket at index 2 is unmatched (no
closing bracket after it), but the deletion step only examines the
*first* occurrence of the opening bracket, which is matched — whereas the
claim demands deleting exactly one unmatched opening bracket, which would
yield `"()"`. -/
theorem spec_C5_counterexample :
    normalize_pair_punct '(' ')' ['(', ')', '('] = ['(', ')', '(']
    ∧ (['(', ')', '('] : List Char) ≠ ['(', ')'] := by
  refine ⟨by decide, by decide⟩

/-- C5, amended: one scan of `normalize_pair_punct` collapses runs of the
opening bracket (a run of `n` becomes `n mod 2`: a doubled bracket is
removed entirely, a tripled one reduced to a single one), likewise for
the closing bracket; it then deletes the *first occurrence* of the
opening bracket exactly when no closing bracket occurs anywhere after it
(so at most one opening bracket is deleted; an unmatched occurrence that
is not the first is kept), and finally the first occurrence of the
closing bracket exactly when no opening bracket occurs before it. -/
theorem spec_C5_pair_punct (l r : Char) :
    (∀ s, normalize_pair_punct l r s
        = deleteUnmatchedRight l r (deleteUnmatchedLeft l r (collapsePhase l r s)))
    ∧ (∀ n, collapsePhase l r (List.replicate n l) = List.replicate (n % 2) l)
    ∧ (∀ n, collapsePhase l r (List.replicate n r) = List.replicate (n % 2) r)
    ∧ (∀ s i, firstOccAt s l i →
        ((∃ j, i < j ∧ s[j]? = some r) → deleteUnmatchedLeft l r s = s)
        ∧ ((∀ j, i < j → s[j]? ≠ some r) → deleteUnmatchedLeft l r s = s.eraseIdx i))
    ∧ (∀ s, l ∉ s → deleteUnmatchedLeft l r s = s)
    ∧ (∀ s i, firstOccAt s r i →
        ((∃ j, j < i ∧ s[j]? = some l) → deleteUnmatchedRight l r s = s)
        ∧ ((∀ j, j < i → s[j]? ≠ some l) → deleteUnmatchedRight l r s = s.eraseIdx i))
    ∧ (∀ s, r ∉ s → deleteUnmatchedRight l r s = s) :=
  ⟨fun _ => rfl,
    collapsePhase_replicate_left l r,
    collapsePhase_replicate_right l r,
    fun s i hfo => deleteUnmatchedLeft_spec l r s i hfo,
    fun s h => deleteUnmatchedLeft_no_left l r s h,
    fun s i hfo => deleteUnmatchedRight_spec l r s i hfo,
    fun s h => deleteUnmatchedRight_no_right l r s h⟩

/-- Witness for C5: a doubled opening bracket vanishes, a matched first
opening bracket blocks deletion, and an unmatched first opening bracket
is deleted. -/
theorem spec_C5_witness :
    collapsePhase '(' ')' ['(', '('] = []
    ∧ deleteUnmatchedLeft '(' ')' ['a', '(', 'b'] = ['a', 'b']
    ∧ deleteUnmatchedLeft '(' ')' ['a', '(', 'b', ')'] = ['a', '(', 'b', ')'] := by
  obtain ⟨hcomp, hl, hr, hdl, hdlno, hdr, hdrno⟩ := spec_C5_pair_punct '(' ')'
  have hfo : firstOccAt ['a', '(', 'b'] '(' 1 := by
    refine ⟨by decide, ?_⟩
    intro k hk
    interval_cases k
    decide
  have hfo2 : firstOccAt ['a', '(', 'b', ')'] '(' 1 := by
    refine ⟨by decide, ?_⟩
    intro k hk
    interval_cases k
    decide
  refine ⟨?_, ?_, ?_⟩
  · have := hl 2
    simpa using this
  · have := (hdl ['a', '(', 'b'] 1 hfo).2 ?_
    · rw [this]
      decide
    · intro j hj
      match j, hj with
      | 2, _ => decide
      | j + 3, _ =>
        rw [List.getElem?_eq_none (by simp)]
        simp
  · exact (hdl ['a', '(', 'b', ')'] 1 hfo2).1 ⟨3, by omega, by decide⟩

/-- C7, counterexample: the claim constructs `CharacterRatioFilter` with
the language codes `["zh", "en"]`; but `__init__` passes its `scripts`
argument directly into the `\p{^Script=...}` patterns without ever
consulting `lang2script`, and `zh`/`en` are not Unicode script names, so
construction raises a regex error (`none`) and the pair is not kept. -/
theorem spec_C7_counterexample :
    characterRatioRun ["zh", "en"] (some [1, 1]) "你好世界".toList "hello world".toList = none
    ∧ characterRatioRun ["zh", "en"] (some [1, 1]) "你好世界".toList "hello world".toList
        ≠ some (some ("你好世界".toList, "hello world".toList)) := by
  exact ⟨rfl, fun h => Option.noConfusion h⟩

/-- The source side `你好世界` of the first C7 pair scores `4/4` against
`Han`: all four characters are alphabetic and all are Han. -/
theorem characterRatioScore_hanzi :
    characterRatioScore ["Han", "Latin"] "你好世界".toList 0 = some ((4 : ℚ) / (4 : ℚ)) := rfl

/-- The target side `hello world` scores `10/10` against `Latin`: the ten
letters are alphabetic (the space is not) and all are Latin. -/
theorem characterRatioScore_hello_world :
    characterRatioScore ["Han", "Latin"] "hello world".toList 1
      = some ((10 : ℚ) / (10 : ℚ)) := rfl

/-- The mixed-script side `你好world` scores `2/7` against `Han`: seven
alphabetic characters, of which only two are Han. -/
theorem characterRatioScore_mixed :
    characterRatioScore ["Han", "Latin"] "你好world".toList 0
      = some ((2 : ℚ) / (7 : ℚ)) := rfl

/-- C7, amended: constructed directly with the Unicode script names
`["Han", "Latin"]` (the values `lang2script` would give for `zh`/`en`)
and thresholds `[1, 1]`, the filter keeps `("你好世界", "hello world")` —
both sides score 1 — and rejects `("你好world", "hello")`, whose source
mixes scripts and scores below 1. -/
theorem spec_C7_character_ratio :
    characterRatioRun ["Han", "Latin"] (some [1, 1]) "你好世界".toList "hello world".toList
      = some (some ("你好世界".toList, "hello world".toList))
    ∧ characterRatioRun ["Han", "Latin"] (some [1, 1]) "你好world".toList "hello".toList
      = some none := by
  constructor
  · have e0 : characterRatioRun ["Han", "Latin"] (some [1, 1]) "你好世界".toList
        "hello world".toList
        = characterRatioFilter ["Han", "Latin"] [1, 1] "你好世界".toList "hello world".toList := rfl
    rw [e0]
    unfold characterRatioFilter
    rw [characterRatioScore_hanzi, characterRatioScore_hello_world]
    norm_num
  · have e0 : characterRatioRun ["Han", "Latin"] (some [1, 1]) "你好world".toList "hello".toList
        = characterRatioFilter ["Han", "Latin"] [1, 1] "你好world".toList "hello".toList := rfl
    rw [e0]
    unfold characterRatioFilter
    rw [characterRatioScore_mixed]
    norm_num

/-- C8, counterexample: for `src = "ß"` the claim fails.  Python's
`"ß".upper()` is the full mapping `"SS"`, and `"SS".lower()` is `"ss"`,
which differs from `"ß".lower() = "ß"`, so `SameFilter(lower=True)`
keeps the pair instead of returning `None`. -/
theorem spec_C8_counterexample :
    sameFilter true ['ß'] (pyUpper ['ß']) = some (['ß'], ['S', 'S'])
    ∧ some (['ß'], ['S', 'S']) ≠ (none : Option (List Char × List Char)) := by
  refine ⟨by decide, by simp⟩

/-- C8, amended: for every `src` made of ASCII characters only,
`SameFilter(lower=True).filter(src, src.upper())` is `None`: on ASCII,
upcasing is a character-wise map that lowercasing undoes, and it commutes
with stripping, so both sides compare equal. -/
theorem spec_C8_same_upper (src : List Char) (h : is_ascii src = true) :
    sameFilter true src (pyUpper src) = none := by
  unfold sameFilter
  rw [if_pos rfl]
  rw [pyUpper_ascii src h, pyStrip_map_upCharAscii,
    pyLower_map_upCharAscii _ (all_pyStrip _ _ h)]
  simp

/-- Witness for C8 at `src = "Hello"`. -/
theorem spec_C8_witness : sameFilter true "Hello".toList (pyUpper "Hello".toList) = none :=
  spec_C8_same_upper "Hello".toList (by decide)

/-- C10: `LongWordFilter.filter` is partial.  If the source maximum is
configured and the source is empty or all whitespace, `max` is taken over
an empty token list and raises `ValueError` (`none`); if only the target
maximum is configured, the same happens for an all-whitespace target; and
whenever every side with a configured maximum has at least one
whitespace-delimited token, the call returns normally. -/
theorem spec_C10_long_word_crashes (smax tmax : Option Nat) (src tgt : List Char) :
    (smax ≠ none → src.all isPySpace = true → longWordFilter smax tmax src tgt = none)
    ∧ (smax = none → tmax ≠ none → tgt.all isPySpace = true →
        longWordFilter smax tmax src tgt = none)
    ∧ ((smax ≠ none → src.all isPySpace = false) → (tmax ≠ none → tgt.all isPySpace = false) →
        longWordFilter smax tmax src tgt ≠ none) := by
  refine ⟨?_, ?_, ?_⟩
  · intro hs hws
    have hnil : pySplit src = [] := pySplit_eq_nil_of_all_ws src hws
    rcases smax with _ | m
    · exact absurd rfl hs
    · unfold longWordFilter
      simp [hnil, listMax]
  · intro hs ht hws
    have hnil : pySplit tgt = [] := pySplit_eq_nil_of_all_ws tgt hws
    rcases tmax with _ | m
    · exact absurd rfl ht
    · subst hs
      unfold longWordFilter
      simp [hnil, listMax]
  · intro hsrc htgt
    unfold longWordFilter
    split
    · simp
    · rcases smax with _ | m
      · rcases tmax with _ | m'
        · simp
        · have hne : pySplit tgt ≠ [] := pySplit_ne_nil tgt (htgt (by simp))
          rcases hsp : pySplit tgt with _ | ⟨t, ts⟩
          · exact absurd hsp hne
          · simp only [hsp, List.map_cons, listMax]
            split <;> simp
      · have hne : pySplit src ≠ [] := pySplit_ne_nil src (hsrc (by simp))
        rcases hsp : pySplit src with _ | ⟨t, ts⟩
        · exact absurd hsp hne
        · simp only [hsp, List.map_cons, listMax]
          split
          · simp
          · rcases tmax with _ | m'
            · simp
            · have hne' : pySplit tgt ≠ [] := pySplit_ne_nil tgt (htgt (by simp))
              rcases hsp' : pySplit tgt with _ | ⟨t', ts'⟩
              · exact absurd hsp' hne'
              · simp only [hsp', List.map_cons, listMax]
                split <;> simp

/-- Witness for C10: with a source maximum of 40 and an all-whitespace
source the call crashes. -/
theorem spec_C10_witness : longWordFilter (some 40) none [' '] ['a'] = none :=
  (spec_C10_long_word_crashes (some 40) none [' '] ['a']).1 (by simp) (by decide)

/-- C9: every concrete filter of the filter module either rejects a pair
or returns exactly the input pair — no filter ever rewrites a sentence.
Each conjunct states, for one filter (quantified over its entire
configuration, with the external helpers `has_zh`, the `difflib` ratio
and `detect_lang` as arbitrary functions), that a normal `filter` call
returns `None` or the unmodified `(src, tgt)`; for the filters that can
raise, the exceptional outcome is listed as well. -/
theorem spec_C9_filters_frame (lower filterSrc fsrc ftgt exclWs : Bool)
    (has_zh : List Char → Bool) (ratioFn : List Char → List Char → ℚ)
    (detect_lang : List Char → String) (srcLang tgtLang : String)
    (threshold ratio : ℚ) (srcLenFn tgtLenFn : List Char → Nat)
    (srcMin srcMax tgtMin tgtMax smax tmax : Option Nat)
    (scripts : List String) (thresholds : List ℚ) (src tgt : List Char) :
    (sameFilter lower src tgt = none ∨ sameFilter lower src tgt = some (src, tgt))
    ∧ (hasZhFilter has_zh filterSrc src tgt = none
        ∨ hasZhFilter has_zh filterSrc src tgt = some (src, tgt))
    ∧ (overlapFilter ratioFn ratio src tgt = none
        ∨ overlapFilter ratioFn ratio src tgt = some (src, tgt))
    ∧ (emptyFilter src tgt = none ∨ emptyFilter src tgt = some (src, tgt))
    ∧ (allASCIIFilter src tgt = none ∨ allASCIIFilter src tgt = some (src, tgt))
    ∧ (asciiRatioFilter threshold fsrc ftgt src tgt = none
        ∨ asciiRatioFilter threshold fsrc ftgt src tgt = some none
        ∨ asciiRatioFilter threshold fsrc ftgt src tgt = some (some (src, tgt)))
    ∧ (langFilter detect_lang srcLang tgtLang src tgt = none
        ∨ langFilter detect_lang srcLang tgtLang src tgt = some (src, tgt))
    ∧ (lenFilter srcLenFn tgtLenFn srcMin srcMax tgtMin tgtMax src tgt = none
        ∨ lenFilter srcLenFn tgtLenFn srcMin srcMax tgtMin tgtMax src tgt = some (src, tgt))
    ∧ (lenDiffFilter ratio srcLenFn tgtLenFn src tgt = none
        ∨ lenDiffFilter ratio srcLenFn tgtLenFn src tgt = some (src, tgt))
    ∧ (lengthFilter srcLenFn tgtLenFn srcMin srcMax tgtMin tgtMax ratio src tgt = none
        ∨ lengthFilter srcLenFn tgtLenFn srcMin srcMax tgtMin tgtMax ratio src tgt
            = some (src, tgt))
    ∧ (longWordFilter smax tmax src tgt = none
        ∨ longWordFilter smax tmax src tgt = some none
        ∨ longWordFilter smax tmax src tgt = some (some (src, tgt)))
    ∧ (alphabetRatioFilter threshold exclWs src tgt = none
        ∨ alphabetRatioFilter threshold exclWs src tgt = some none
        ∨ alphabetRatioFilter threshold exclWs src tgt = some (some (src, tgt)))
    ∧ (characterRatioFilter scripts thresholds src tgt = none
        ∨ characterRatioFilter scripts thresholds src tgt = some none
        ∨ characterRatioFilter scripts thresholds src tgt = some (some (src, tgt)))
    ∧ (augumentForZhFilter src tgt = none ∨ augumentForZhFilter src tgt = some (src, tgt)) := by
  refine ⟨?_, ?_, ?_, ?_, ?_, ?_, ?_, ?_, ?_, ?_, ?_, ?_, ?_, ?_⟩
  · unfold sameFilter
    repeat' split
    all_goals simp
  · unfold hasZhFilter
    repeat' split
    all_goals simp
  · unfold overlapFilter
    repeat' split
    all_goals simp
  · unfold emptyFilter
    repeat' split
    all_goals simp
  · unfold allASCIIFilter
    repeat' split
    all_goals simp
  · unfold asciiRatioFilter
    repeat' split
    all_goals simp
  · unfold langFilter
    repeat' split
    all_goals simp
  · unfold lenFilter
    dsimp only
    repeat' split
    all_goals simp
  · unfold lenDiffFilter
    dsimp only
    repeat' split
    all_goals simp
  · unfold lengthFilter
    dsimp only
    repeat' split
    all_goals simp
  · unfold longWordFilter
    repeat' split
    all_goals simp
  · unfold alphabetRatioFilter
    repeat' split
    all_goals simp
  · unfold characterRatioFilter
    repeat' split
    all_goals simp
  · unfold augumentForZhFilter
    repeat' split
    all_goals simp





theorem chainP_cons (R : Char → Char → Prop) (a : Char) (l : List Char) :
    chainP R (a :: l) ↔ (∀ b, l.head? = some b → R a b) ∧ chainP R l := by
  cases l with
  | nil => simp [chainP]
  | cons b l' => simp [chainP]

theorem chainP_tail (R : Char → Char → Prop) (a : Char) (l : List Char)
    (h : chainP R (a :: l)) : chainP R l :=
  ((chainP_cons R a l).mp h).2

theorem chainP_mono (R S : Char → Char → Prop) (hRS : ∀ a b, R a b → S a b) :
    ∀ l, chainP R l → chainP S l := by
  intro l
  induction l with
  | nil => intro h; trivial
  | cons a rest ih =>
    intro h
    rw [chainP_cons] at h ⊢
    exact ⟨fun b hb => hRS a b (h.1 b hb), ih h.2⟩

theorem head_dropWhile_false (p : Char → Bool) :
    ∀ (l : List Char) (a : Char), (l.dropWhile p).head? = some a → p a = false := by
  intro l
  induction l with
  | nil => intro a h; simp at h
  | cons c rest ih =>
    intro a h
    rw [List.dropWhile_cons] at h
    split at h
    · exact ih a h
    · rename_i hc
      simp only [List.head?_cons, Option.some_inj] at h
      subst h
      simpa using hc

theorem collapseWsAux_nil (fuel : Nat) : collapseWsAux fuel [] = [] := by
  rw [collapseWsAux]

theorem collapseWsAux_singleton (fuel : Nat) (c : Char) : collapseWsAux fuel [c] = [c] := by
  rw [collapseWsAux]

theorem collapseWsAux_cons_cons (fuel : Nat) (c d : Char) (rest : List Char) :
    collapseWsAux (fuel + 1) (c :: d :: rest)
      = if isPySpace c then
          if isPySpace d then ' ' :: collapseWsAux fuel (rest.dropWhile isPySpace)
          else c :: collapseWsAux fuel (d :: rest)
        else c :: collapseWsAux fuel (d :: rest) := by
  rw [collapseWsAux]

theorem collapseWsAux_head (fuel : Nat) (t : List Char)
    (h : ∀ x, t.head? = some x → isPySpace x = false) :
    (collapseWsAux fuel t).head? = t.head? := by
  match fuel, t with
  | fuel, [] => rw [collapseWsAux_nil]
  | fuel, [c] => rw [collapseWsAux_singleton]
  | 0, c :: d :: rest =>
    rw [collapseWsAux]
    · intro h0
      exact List.noConfusion h0
    · intro c1 h1
      simp at h1
  | fuel + 1, c :: d :: rest =>
    have hc : isPySpace c = false := h c rfl
    rw [collapseWsAux_cons_cons]
    rw [if_neg (by simp [hc])]
    rfl

theorem collapseWsAux_zero (s : List Char) : collapseWsAux 0 s = s := by
  match s with
  | [] => rw [collapseWsAux_nil]
  | [c] => rw [collapseWsAux_singleton]
  | c :: d :: rest =>
    rw [collapseWsAux]
    · intro h0
      exact List.noConfusion h0
    · intro c1 h1
      simp at h1

theorem collapseWsAux_noTwoWs :
    ∀ (fuel : Nat) (s : List Char), s.length ≤ fuel → noTwoWs (collapseWsAux fuel s) := by
  intro fuel
  induction fuel using Nat.strong_induction_on with
  | _ fuel ih =>
    intro s hlen
    match fuel, s with
    | fuel, [] =>
      rw [collapseWsAux_nil]
      trivial
    | fuel, [c] =>
      rw [collapseWsAux_singleton]
      trivial
    | 0, c :: d :: rest => simp at hlen
    | fuel + 1, c :: d :: rest =>
      simp only [List.length_cons] at hlen
      rw [collapseWsAux_cons_cons]
      by_cases hc : isPySpace c = true
      · rw [if_pos hc]
        by_cases hd : isPySpace d = true
        · rw [if_pos hd]
          unfold noTwoWs
          rw [chainP_cons]
          constructor
          · intro b hb
            rw [collapseWsAux_head fuel _ (fun x hx => head_dropWhile_false isPySpace rest x hx)]
              at hb
            have hbf : isPySpace b = false := head_dropWhile_false isPySpace rest b hb
            intro hcontra
            rw [hbf] at hcontra
            exact Bool.false_ne_true hcontra.2
          · have hsub := (List.dropWhile_sublist (l := rest) isPySpace).length_le
            exact ih fuel (by omega) _ (by omega)
        · rw [if_neg hd]
          unfold noTwoWs
          rw [chainP_cons]
          constructor
          · intro b hb
            rw [collapseWsAux_head fuel _ ?_] at hb
            · simp only [List.head?_cons, Option.some_inj] at hb
              subst hb
              intro hcontra
              exact hd hcontra.2
            · intro x hx
              simp only [List.head?_cons, Option.some_inj] at hx
              subst hx
              simpa using hd
          · exact ih fuel (by omega) _ (by simpa using by omega)
      · rw [if_neg hc]
        unfold noTwoWs
        rw [chainP_cons]
        constructor
        · intro b _
          intro hcontra
          exact hc hcontra.1
        · exact ih fuel (by omega) _ (by simpa using by omega)

theorem collapseWsAux_mem :
    ∀ (fuel : Nat) (s : List Char), ∀ x ∈ collapseWsAux fuel s, x ∈ s ∨ x = ' ' := by
  intro fuel
  induction fuel with
  | zero =>
    intro s x hx
    rw [collapseWsAux_zero] at hx
    exact Or.inl hx
  | succ f ih =>
    intro s x hx
    match s with
    | [] =>
      rw [collapseWsAux_nil] at hx
      simp at hx
    | [c] =>
      rw [collapseWsAux_singleton] at hx
      exact Or.inl hx
    | c :: d :: rest =>
      rw [collapseWsAux_cons_cons] at hx
      by_cases hc : isPySpace c = true
      · rw [if_pos hc] at hx
        by_cases hd : isPySpace d = true
        · rw [if_pos hd] at hx
          rcases List.mem_cons.mp hx with hx | hx
          · exact Or.inr hx
          · rcases ih _ x hx with hm | hs
            · exact Or.inl (List.mem_cons_of_mem c (List.mem_cons_of_mem d
                (List.dropWhile_subset isPySpace hm)))
            · exact Or.inr hs
        · rw [if_neg hd] at hx
          rcases List.mem_cons.mp hx with hx | hx
          · exact Or.inl (hx ▸ List.mem_cons_self c (d :: rest))
          · rcases ih _ x hx with hm | hs
            · exact Or.inl (List.mem_cons_of_mem c hm)
            · exact Or.inr hs
      · rw [if_neg hc] at hx
        rcases List.mem_cons.mp hx with hx | hx
        · exact Or.inl (hx ▸ List.mem_cons_self c (d :: rest))
        · rcases ih _ x hx with hm | hs
          · exact Or.inl (List.mem_cons_of_mem c hm)
          · exact Or.inr hs

theorem collapseWsAux_fix :
    ∀ (fuel : Nat) (s : List Char), noTwoWs s → collapseWsAux fuel s = s := by
  intro fuel
  induction fuel with
  | zero => intro s _; exact collapseWsAux_zero s
  | succ f ih =>
    intro s hs
    match s with
    | [] => rw [collapseWsAux_nil]
    | [c] => rw [collapseWsAux_singleton]
    | c :: d :: rest =>
      have hrel : noTwoWsRel c d := hs.1
      have htail : noTwoWs (d :: rest) := hs.2
      rw [collapseWsAux_cons_cons]
      by_cases hc : isPySpace c = true
      · rw [if_pos hc]
        have hd : isPySpace d = false := by
          rcases Bool.eq_false_or_eq_true (isPySpace d) with h | h
          · exact absurd ⟨hc, h⟩ hrel
          · exact h
        rw [if_neg (by simp [hd])]
        rw [ih _ htail]
      · rw [if_neg hc]
        rw [ih _ htail]

theorem collapseWs_noTwoWs (s : List Char) : noTwoWs (collapseWs s) :=
  collapseWsAux_noTwoWs s.length s (Nat.le_refl _)

theorem collapseWs_mem (s : List Char) : ∀ x ∈ collapseWs s, x ∈ s ∨ x = ' ' :=
  collapseWsAux_mem s.length s

theorem collapseWs_fix (s : List Char) (h : noTwoWs s) : collapseWs s = s :=
  collapseWsAux_fix s.length s h

theorem noTwoWs_dropWhile (p : Char → Bool) :
    ∀ (s : List Char), noTwoWs s → noTwoWs (s.dropWhile p) := by
  intro s
  induction s with
  | nil => intro h; exact h
  | cons c rest ih =>
    intro h
    rw [List.dropWhile_cons]
    split
    · exact ih (chainP_tail _ c rest h)
    · exact h

theorem dropTrailingWs_head (l : List Char) (h : dropTrailingWs l ≠ []) :
    (dropTrailingWs l).head? = l.head? := by
  match l with
  | [] => rfl
  | c :: rest =>
    unfold dropTrailingWs at h ⊢
    rcases hd : dropTrailingWs rest with _ | ⟨d, ds⟩
    · simp only [hd] at h ⊢
      by_cases hws : isPySpace c = true
      · rw [if_pos hws] at h
        exact absurd rfl h
      · rw [if_neg hws]
        rfl
    · simp only [hd]
      rfl

theorem noTwoWs_dropTrailingWs :
    ∀ (s : List Char), noTwoWs s → noTwoWs (dropTrailingWs s) := by
  intro s
  induction s with
  | nil => intro h; exact h
  | cons c rest ih =>
    intro h
    unfold dropTrailingWs
    rcases hd : dropTrailingWs rest with _ | ⟨d, ds⟩
    · simp only [hd]
      split
      · trivial
      · trivial
    · simp only [hd]
      have htail := ih (chainP_tail _ c rest h)
      rw [hd] at htail
      unfold noTwoWs
      rw [chainP_cons]
      refine ⟨?_, htail⟩
      intro b hb
      have hhead : (dropTrailingWs rest).head? = rest.head? :=
        dropTrailingWs_head rest (by rw [hd]; simp)
      rw [hd] at hhead
      simp only [List.head?_cons, Option.some_inj] at hb
      subst hb
      match rest, hhead with
      | e :: rest', heq =>
        simp only [List.head?_cons, Option.some_inj] at heq
        subst heq
        exact h.1

theorem noTwoWs_pyStrip (s : List Char) (h : noTwoWs s) : noTwoWs (pyStrip s) :=
  noTwoWs_dropTrailingWs _ (noTwoWs_dropWhile isPySpace s h)

theorem dropTrailingWs_last :
    ∀ (l : List Char) (c : Char), (dropTrailingWs l).getLast? = some c → isPySpace c = false := by
  intro l
  induction l with
  | nil =>
    intro c h
    simp only [dropTrailingWs, List.getLast?_nil] at h
    exact Option.noConfusion h
  | cons a rest ih =>
    intro c h
    unfold dropTrailingWs at h
    rcases hd : dropTrailingWs rest with _ | ⟨d, ds⟩
    · simp only [hd] at h
      by_cases hws : isPySpace a = true
      · rw [if_pos hws] at h
        simp at h
      · rw [if_neg hws] at h
        simp only [List.getLast?_singleton, Option.some_inj] at h
        subst h
        simpa using hws
    · simp only [hd] at h
      rw [List.getLast?_cons_cons] at h
      rw [← hd] at h
      exact ih c h

theorem pyStrip_head (s : List Char) (c : Char) (h : (pyStrip s).head? = some c) :
    isPySpace c = false := by
  unfold pyStrip at h
  have hne : dropTrailingWs (s.dropWhile isPySpace) ≠ [] := by
    intro h0
    rw [h0] at h
    simp at h
  rw [dropTrailingWs_head _ hne] at h
  exact head_dropWhile_false isPySpace s c h

theorem pyStrip_last (s : List Char) (c : Char) (h : (pyStrip s).getLast? = some c) :
    isPySpace c = false :=
  dropTrailingWs_last _ c h

theorem dropWhile_fix (p : Char → Bool) (s : List Char)
    (h : ∀ c, s.head? = some c → p c = false) : s.dropWhile p = s := by
  match s with
  | [] => rfl
  | c :: rest =>
    rw [List.dropWhile_cons, if_neg]
    simp [h c rfl]

theorem dropTrailingWs_fix :
    ∀ (l : List Char), (∀ c, l.getLast? = some c → isPySpace c = false) →
      dropTrailingWs l = l := by
  intro l
  induction l with
  | nil => intro _; rfl
  | cons c rest ih =>
    intro h
    match rest, ih with
    | [], _ =>
      unfold dropTrailingWs
      simp only [dropTrailingWs]
      rw [if_neg]
      simp [h c rfl]
    | d :: rest', ih =>
      have hd : dropTrailingWs (d :: rest') = d :: rest' := by
        apply ih
        intro e he
        apply h
        rw [List.getLast?_cons_cons]
        exact he
      unfold dropTrailingWs
      simp only [hd]

theorem pyStrip_fix (s : List Char)
    (hh : ∀ c, s.head? = some c → isPySpace c = false)
    (hl : ∀ c, s.getLast? = some c → isPySpace c = false) : pyStrip s = s := by
  unfold pyStrip
  rw [dropWhile_fix isPySpace s hh, dropTrailingWs_fix s hl]

theorem mem_dropTrailingWs : ∀ (l : List Char) (x : Char), x ∈ dropTrailingWs l → x ∈ l := by
  intro l
  induction l with
  | nil => intro x hx; exact hx
  | cons c rest ih =>
    intro x hx
    unfold dropTrailingWs at hx
    rcases hd : dropTrailingWs rest with _ | ⟨d, ds⟩
    · simp only [hd] at hx
      split at hx
      · simp at hx
      · simp only [List.mem_singleton] at hx
        exact hx ▸ List.mem_cons_self c rest
    · simp only [hd] at hx
      rcases List.mem_cons.mp hx with hx | hx
      · exact hx ▸ List.mem_cons_self c rest
      · exact List.mem_cons_of_mem c (ih x (hd ▸ hx))

theorem mem_pyStrip (s : List Char) (x : Char) (hx : x ∈ pyStrip s) : x ∈ s :=
  List.dropWhile_subset isPySpace (mem_dropTrailingWs _ x hx)

theorem mem_replaceChar (a b : Char) (s : List Char) (x : Char) (hx : x ∈ replaceChar a b s) :
    x = b ∨ (x ∈ s ∧ x ≠ a) := by
  unfold replaceChar at hx
  rw [List.mem_map] at hx
  obtain ⟨c, hc, hcx⟩ := hx
  by_cases hca : c = a
  · rw [if_pos hca] at hcx
    exact Or.inl hcx.symm
  · rw [if_neg hca] at hcx
    exact Or.inr ⟨hcx ▸ hc, hcx ▸ hca⟩

theorem replaceChar_fix (a b : Char) :
    ∀ (s : List Char), (∀ x ∈ s, x ≠ a) → replaceChar a b s = s := by
  intro s
  induction s with
  | nil => intro _; rfl
  | cons c rest ih =>
    intro h
    unfold replaceChar
    rw [List.map_cons]
    rw [if_neg (h c (List.mem_cons_self c rest))]
    have := ih (fun x hx => h x (List.mem_cons_of_mem c hx))
    unfold replaceChar at this
    rw [this]


theorem rmSpaces_cons (asciiP : Char → Bool) (p : Option Char) (c : Char) (rest : List Char) :
    rmSpaces asciiP p (c :: rest)
      = if (decide (c = ' ') && (nonAsciiOpt asciiP p || nonAsciiOpt asciiP rest.head?)) = true
        then rmSpaces asciiP (some c) rest
        else c :: rmSpaces asciiP (some c) rest := rfl

theorem rmSpaces_cons_not_space (asciiP : Char → Bool) (p : Option Char) (d : Char)
    (rest : List Char) (hd : d ≠ ' ') :
    rmSpaces asciiP p (d :: rest) = d :: rmSpaces asciiP (some d) rest := by
  rw [rmSpaces_cons, if_neg]
  simp [hd]

theorem noTwoWs_optCons_tail (p : Option Char) (xs : List Char)
    (h : noTwoWs (optCons p xs)) : noTwoWs xs := by
  match p with
  | none => exact h
  | some v => exact chainP_tail _ v xs h

theorem space_isPySpace : isPySpace ' ' = true := by decide

theorem ne_space_of_not_ws (d : Char) (h : isPySpace d = false) : d ≠ ' ' := by
  intro hds
  rw [hds, space_isPySpace] at h
  exact absurd h (by decide)

theorem rmSpaces_good (asciiP : Char → Bool) :
    ∀ (xs : List Char) (p : Option Char),
      noTwoWs (optCons p xs) →
      (p = some ' ' → ∀ e, xs.head? = some e → asciiP e = true) →
      chainP (goodAdj asciiP) (rmSpaces asciiP p xs)
      ∧ (∀ d, (rmSpaces asciiP p xs).head? = some d →
          (p = some ' ' → asciiP d = true) ∧ (d = ' ' → ∀ v, p = some v → asciiP v = true)) := by
  intro xs
  induction xs with
  | nil =>
    intro p _ _
    constructor
    · trivial
    · intro d hd
      simp [rmSpaces] at hd
  | cons c rest ih =>
    intro p hchain hp
    have hchain' : noTwoWs (c :: rest) := noTwoWs_optCons_tail p (c :: rest) hchain
    rw [rmSpaces_cons]
    by_cases hcond :
        (decide (c = ' ') && (nonAsciiOpt asciiP p || nonAsciiOpt asciiP rest.head?)) = true
    · -- c is a removed space
      rw [if_pos hcond]
      have hc : c = ' ' := by
        simp only [Bool.and_eq_true, decide_eq_true_eq] at hcond
        exact hcond.1
      have hpn : p ≠ some ' ' := by
        intro hps
        match p, hps with
        | some v, hps =>
          have hvc : noTwoWsRel v c := hchain.1
          have hv : v = ' ' := by injection hps
          subst hv
          subst hc
          exact hvc ⟨space_isPySpace, space_isPySpace⟩
      match rest, hchain', ih with
      | [], _, _ =>
        constructor
        · trivial
        · intro d hd
          simp [rmSpaces] at hd
      | d :: rest', hchain', ih =>
        have hdnw : isPySpace d = false := by
          have hrel : noTwoWsRel c d := hchain'.1
          rcases Bool.eq_false_or_eq_true (isPySpace d) with h | h
          · exact absurd ⟨by rw [hc]; exact space_isPySpace, h⟩ hrel
          · exact h
        have hdns : d ≠ ' ' := ne_space_of_not_ws d hdnw
        have hout2 : rmSpaces asciiP (some c) (d :: rest')
            = d :: rmSpaces asciiP (some d) rest' :=
          rmSpaces_cons_not_space asciiP (some c) d rest' hdns
        have hout3 : rmSpaces asciiP none (d :: rest')
            = d :: rmSpaces asciiP (some d) rest' :=
          rmSpaces_cons_not_space asciiP none d rest' hdns
        obtain ⟨hA, hB⟩ := ih none (chainP_tail _ c (d :: rest') hchain') (by simp)
        rw [hout2]
        rw [hout3] at hA
        constructor
        · exact hA
        · intro e he
          simp only [List.head?_cons, Option.some_inj] at he
          subst he
          exact ⟨fun hps => absurd hps hpn, fun hes => absurd hes hdns⟩
    · -- c survives
      rw [if_neg hcond]
      have hp' : some c = some ' ' → ∀ e, rest.head? = some e → asciiP e = true := by
        intro hcs e he
        have hc : c = ' ' := by injection hcs
        have hor : (nonAsciiOpt asciiP p || nonAsciiOpt asciiP rest.head?) = false := by
          rcases Bool.eq_false_or_eq_true
              (nonAsciiOpt asciiP p || nonAsciiOpt asciiP rest.head?) with h | h
          · exact absurd (by simp [hc, h]) hcond
          · exact h
        have hna : nonAsciiOpt asciiP rest.head? = false := by
          simp only [Bool.or_eq_false_iff] at hor
          exact hor.2
        rw [he] at hna
        simpa [nonAsciiOpt] using hna
      obtain ⟨hA, hB⟩ := ih (some c) hchain' hp'
      constructor
      · rw [chainP_cons]
        refine ⟨?_, hA⟩
        intro b hb
        obtain ⟨hB1, hB2⟩ := hB b hb
        refine ⟨?_, fun hcs => hB1 (by rw [hcs]), fun hbs => hB2 hbs c rfl⟩
        rcases Bool.eq_false_or_eq_true (isPySpace c) with hcw | hcw
        · match rest, hchain', hb with
          | [], _, hb => simp [rmSpaces] at hb
          | e :: rest', hchain', hb =>
            have henw : isPySpace e = false := by
              have hrel : noTwoWsRel c e := hchain'.1
              rcases Bool.eq_false_or_eq_true (isPySpace e) with h | h
              · exact absurd ⟨hcw, h⟩ hrel
              · exact h
            have hens : e ≠ ' ' := ne_space_of_not_ws e henw
            rw [rmSpaces_cons_not_space asciiP (some c) e rest' hens] at hb
            simp only [List.head?_cons, Option.some_inj] at hb
            subst hb
            intro hcontra
            rw [henw] at hcontra
            exact absurd hcontra.2 (by decide)
        · intro hcontra
          rw [hcw] at hcontra
          exact absurd hcontra.1 (by decide)
      · intro d hd
        simp only [List.head?_cons, Option.some_inj] at hd
        subst hd
        constructor
        · intro hps
          exact hp hps _ rfl
        · intro hds v hpv
          have hor : (nonAsciiOpt asciiP p || nonAsciiOpt asciiP rest.head?) = false := by
            rcases Bool.eq_false_or_eq_true
                (nonAsciiOpt asciiP p || nonAsciiOpt asciiP rest.head?) with h | h
            · exact absurd (by simp [hds, h]) hcond
            · exact h
          have hna : nonAsciiOpt asciiP p = false := by
            simp only [Bool.or_eq_false_iff] at hor
            exact hor.1
          rw [hpv] at hna
          simpa [nonAsciiOpt] using hna

theorem chainP_optCons_tail (R : Char → Char → Prop) (p : Option Char) (xs : List Char)
    (h : chainP R (optCons p xs)) : chainP R xs := by
  match p with
  | none => exact h
  | some v => exact chainP_tail R v xs h

theorem rmSpaces_fix (asciiP : Char → Bool) :
    ∀ (xs : List Char) (p : Option Char),
      chainP (goodAdj asciiP) (optCons p xs) → rmSpaces asciiP p xs = xs := by
  intro xs
  induction xs with
  | nil => intro p _; rfl
  | cons c rest ih =>
    intro p hchain
    have hchain' : chainP (goodAdj asciiP) (c :: rest) := chainP_optCons_tail _ p _ hchain
    rw [rmSpaces_cons, if_neg, ih (some c) hchain']
    intro hcond
    simp only [Bool.and_eq_true, decide_eq_true_eq, Bool.or_eq_true] at hcond
    obtain ⟨hc, hor⟩ := hcond
    rcases hor with hna | hna
    · match p, hna, hchain with
      | some v, hna, hchain =>
        have hgood : goodAdj asciiP v c := hchain.1
        have := hgood.2.2 hc
        simp only [nonAsciiOpt] at hna
        rw [this] at hna
        exact absurd hna (by decide)
    · match rest, hna, hchain' with
      | e :: rest', hna, hchain' =>
        have hgood : goodAdj asciiP c e := hchain'.1
        have := hgood.2.1 hc
        simp only [List.head?_cons, nonAsciiOpt] at hna
        rw [this] at hna
        exact absurd hna (by decide)

theorem rmSpaces_last (asciiP : Char → Bool) :
    ∀ (xs : List Char) (p : Option Char),
      (∀ e, xs.getLast? = some e → e ≠ ' ') →
      (rmSpaces asciiP p xs).getLast? = xs.getLast? := by
  intro xs
  induction xs with
  | nil => intro p _; rfl
  | cons c rest ih =>
    intro p hlast
    match rest, ih, hlast with
    | [], _, hlast =>
      have hc : c ≠ ' ' := hlast c rfl
      rw [rmSpaces_cons_not_space asciiP p c [] hc]
      rfl
    | d :: rest', ih, hlast =>
      have hlast' : ∀ e, (d :: rest').getLast? = some e → e ≠ ' ' := by
        intro e he
        exact hlast e (by rw [List.getLast?_cons_cons]; exact he)
      have hih := ih (some c) hlast'
      rw [rmSpaces_cons]
      split
      · rw [hih, List.getLast?_cons_cons]
      · rcases hgl : (d :: rest').getLast? with _ | e
        · rw [List.getLast?_eq_none_iff] at hgl
          exact List.noConfusion hgl
        · have hne : rmSpaces asciiP (some c) (d :: rest') ≠ [] := by
            intro h0
            rw [h0] at hih
            rw [hgl] at hih
            simp at hih
          match hrm : rmSpaces asciiP (some c) (d :: rest'), hne with
          | u :: t', _ =>
            rw [List.getLast?_cons_cons, ← hrm, hih]
            exact (List.getLast?_cons_cons).symm

theorem rmSpaces_mem (asciiP : Char → Bool) :
    ∀ (xs : List Char) (p : Option Char) (x : Char), x ∈ rmSpaces asciiP p xs → x ∈ xs := by
  intro xs
  induction xs with
  | nil => intro p x hx; exact hx
  | cons c rest ih =>
    intro p x hx
    rw [rmSpaces_cons] at hx
    split at hx
    · exact List.mem_cons_of_mem c (ih (some c) x hx)
    · rcases List.mem_cons.mp hx with hx | hx
      · exact hx ▸ List.mem_cons_self c rest
      · exact List.mem_cons_of_mem c (ih (some c) x hx)


theorem spaceNormalize_eq (asciiP : Char → Bool) (s : List Char) :
    spaceNormalize asciiP s
      = rmSpaces asciiP none
          (pyStrip (collapseWs (replaceChar '\xa0' ' '
            (replaceChar '　' ' ' (pyStrip s))))) := rfl

theorem spaceNormalize_good (asciiP : Char → Bool) (s : List Char) :
    GoodSpace asciiP (spaceNormalize asciiP s) := by
  have hs3ne : ∀ x ∈ replaceChar '\xa0' ' ' (replaceChar '　' ' ' (pyStrip s)),
      x ≠ '　' ∧ x ≠ '\xa0' := by
    intro x hx
    rcases mem_replaceChar _ _ _ _ hx with hx | ⟨hx2, hxa⟩
    · subst hx
      exact ⟨by decide, by decide⟩
    · rcases mem_replaceChar _ _ _ _ hx2 with hx2 | ⟨_, hxi⟩
      · subst hx2
        exact ⟨by decide, by decide⟩
      · exact ⟨hxi, hxa⟩
  set s3 := replaceChar '\xa0' ' ' (replaceChar '　' ' ' (pyStrip s)) with hs3
  set s5 := pyStrip (collapseWs s3) with hs5
  have h5chain : noTwoWs s5 := noTwoWs_pyStrip _ (collapseWs_noTwoWs s3)
  have h5head : ∀ c, s5.head? = some c → isPySpace c = false := fun c hc =>
    pyStrip_head _ c hc
  have h5last : ∀ c, s5.getLast? = some c → isPySpace c = false := fun c hc =>
    pyStrip_last _ c hc
  have hrw : spaceNormalize asciiP s = rmSpaces asciiP none s5 := spaceNormalize_eq asciiP s
  rw [hrw]
  refine ⟨?_, ?_, ?_, ?_⟩
  · intro x hx
    have hx5 : x ∈ s5 := rmSpaces_mem asciiP s5 none x hx
    have hx4 : x ∈ collapseWs s3 := mem_pyStrip _ x hx5
    rcases collapseWs_mem s3 x hx4 with hx3 | hsp
    · exact hs3ne x hx3
    · subst hsp
      exact ⟨by decide, by decide⟩
  · exact (rmSpaces_good asciiP s5 none h5chain (by simp)).1
  · intro c hc
    match hs : s5, h5head, hc with
    | [], _, hc => simp [rmSpaces] at hc
    | d :: rest, h5head, hc =>
      have hd : isPySpace d = false := h5head d rfl
      rw [rmSpaces_cons_not_space asciiP none d rest (ne_space_of_not_ws d hd)] at hc
      simp only [List.head?_cons, Option.some_inj] at hc
      subst hc
      exact hd
  · intro c hc
    have hl : ∀ e, s5.getLast? = some e → e ≠ ' ' := by
      intro e he
      exact ne_space_of_not_ws e (h5last e he)
    rw [rmSpaces_last asciiP s5 none hl] at hc
    exact h5last c hc

theorem spaceNormalize_fix (asciiP : Char → Bool) (y : List Char)
    (h : GoodSpace asciiP y) : spaceNormalize asciiP y = y := by
  obtain ⟨hmem, hchain, hhead, hlast⟩ := h
  have h1 : pyStrip y = y := pyStrip_fix y hhead hlast
  have h2 : replaceChar '　' ' ' y = y :=
    replaceChar_fix _ _ y (fun x hx => (hmem x hx).1)
  have h3 : replaceChar '\xa0' ' ' y = y :=
    replaceChar_fix _ _ y (fun x hx => (hmem x hx).2)
  have h4 : collapseWs y = y :=
    collapseWs_fix y (chainP_mono _ _ (fun a b hab => hab.1) y hchain)
  have h6 : rmSpaces asciiP none y = y := rmSpaces_fix asciiP y none hchain
  rw [spaceNormalize_eq, h1, h2, h3, h4, h1, h6]

/-- C6: both `SpaceNormalizer.normalize` (for any ASCII test) and
`NoPrintNormalizer.normalize` are idempotent on arbitrary Unicode
strings. -/
theorem spec_C6_idempotent (asciiP : Char → Bool) (s : List Char) :
    spaceNormalize asciiP (spaceNormalize asciiP s) = spaceNormalize asciiP s
    ∧ noPrintNormalize (noPrintNormalize s) = noPrintNormalize s := by
  constructor
  · exact spaceNormalize_fix asciiP _ (spaceNormalize_good asciiP s)
  · unfold noPrintNormalize
    rw [List.filter_filter]
    simp
